import Mathlib

/-!
# Law-Tools: verification of the ingestion / chunking / matching pipeline

Shallow embedding of the document pipeline of the Law-Tools repository
(`fulltext-mode.js`, the `agent3_build.mjs` variants and the catalog build
script with the sequential chunk-id counter).  Texts are modelled as
`List Char`; the JavaScript string primitives used by the source
(`slice`, `indexOf`, `toLowerCase`, `split`) are embedded as executable
functions on character lists.  Machine integers do not overflow in any of
the modelled code paths (all quantities are bounded by string lengths),
so `Nat`/`Int` are used directly.
-/

namespace LawTools

/-! ## Fixed-window chunker, streaming variant

Source (`scripts/agent3_build.mjs`, `function* chunker(text)`):
```
const n = text.length;
let i = 0;
while (i < n) {
  const end = Math.min(n, i + CHUNK_SIZE);
  yield text.slice(i, end);
  if (end === n) break;
  i = Math.max(end - CHUNK_OVERLAP, i + 1);
}
```
`CHUNK_SIZE`/`CHUNK_OVERLAP` are module constants (850/120); they are taken
as parameters `W`/`O` here.  The embedding also records the loop variable
`i` at the moment each slice is taken (the chunk's start offset). -/

def chunkerGo (text : List Char) (W O : Nat) (i : Nat) : List (Nat × List Char) :=
  if h : i < text.length then
    let e := min text.length (i + W)
    let slice := (text.drop i).take (e - i)
    if e = text.length then [(i, slice)]
    else (i, slice) :: chunkerGo text W O (max (e - O) (i + 1))
  else []
termination_by text.length - i
decreasing_by omega

/-- The chunk stream of `chunker` for window `W` and overlap `O`:
list of (start offset, chunk text). -/
def chunkerL (text : List Char) (W O : Nat) : List (Nat × List Char) :=
  chunkerGo text W O 0

/-- Concatenation of the non-overlapping prefix of each chunk: each chunk's
text up to the start offset of the next chunk, plus the whole final chunk. -/
def prefixConcat : List (Nat × List Char) → List Char
  | [] => []
  | [(_, t)] => t
  | (s1, t1) :: (s2, t2) :: rest => t1.take (s2 - s1) ++ prefixConcat ((s2, t2) :: rest)

theorem chunkerGo_head (text : List Char) (W O i : Nat) (h : i < text.length) :
    ∃ tl, chunkerGo text W O i =
      (i, (text.drop i).take (min text.length (i + W) - i)) :: tl := by
  rw [chunkerGo.eq_def]
  simp only [dif_pos h]
  by_cases he : min text.length (i + W) = text.length
  · exact ⟨[], by simp [he]⟩
  · exact ⟨chunkerGo text W O (max (min text.length (i + W) - O) (i + 1)), by simp [he]⟩

theorem chunkerGo_prefixConcat (text : List Char) (W O : Nat) (hO : O < W) (i : Nat) :
    prefixConcat (chunkerGo text W O i) = text.drop i := by
  have hW : 1 ≤ W := Nat.lt_of_le_of_lt (Nat.zero_le O) hO
  rw [chunkerGo.eq_def]
  by_cases h : i < text.length
  · simp only [dif_pos h]
    by_cases he : min text.length (i + W) = text.length
    · -- final chunk: the slice is the whole tail of the text
      simp only [if_pos he, prefixConcat, he]
      rw [List.take_of_length_le]
      simp
    · simp only [if_neg he]
      -- non-final chunk: e = i + W and i + W < text.length
      have heW : min text.length (i + W) = i + W := by
        rcases Nat.lt_or_ge (i + W) text.length with hlt | hge
        · exact Nat.min_eq_right (Nat.le_of_lt hlt)
        · exact absurd (Nat.min_eq_left hge) he
      have hlt : i + W < text.length := by
        rcases Nat.lt_or_ge (i + W) text.length with hlt | hge
        · exact hlt
        · exact absurd (Nat.min_eq_left hge) he
      rw [heW]
      set j := max (i + W - O) (i + 1) with hj
      have hij : i < j := by omega
      have hjW : j ≤ i + W := by omega
      have hjlt : j < text.length := Nat.lt_of_le_of_lt hjW hlt
      obtain ⟨tl, htl⟩ := chunkerGo_head text W O j hjlt
      have hrec : prefixConcat (chunkerGo text W O j) = text.drop j :=
        chunkerGo_prefixConcat text W O hO j
      rw [htl] at hrec ⊢
      simp only [prefixConcat, heW]
      rw [hrec]
      have : ((text.drop i).take (i + W - i)).take (j - i) = (text.drop i).take (j - i) := by
        rw [List.take_take]
        congr 1
        omega
      rw [this]
      have hdrop : text.drop j = (text.drop i).drop (j - i) := by
        rw [List.drop_drop]
        congr 1
        omega
      rw [hdrop, List.take_append_drop]
  · simp [dif_neg h, prefixConcat, List.drop_eq_nil_of_le (Nat.le_of_not_lt h)]
termination_by text.length - i
decreasing_by omega

/-- **C7.** For all fixed-window parameters `(W, O)` with `0 ≤ O < W` and every
input text, concatenating the non-overlapping prefix of each chunk produced by
`chunker` (each chunk's text up to the start of the next chunk, plus the whole
final chunk) reconstructs the original text exactly. -/
theorem chunker_prefix_reconstruction (W O : Nat) (text : List Char) (hO : O < W) :
    prefixConcat (chunkerL text W O) = text := by
  have := chunkerGo_prefixConcat text W O hO 0
  simpa [chunkerL] using this

/-- Witness for C7 at `W = 3`, `O = 1`, text `"abcde"`. -/
theorem chunker_prefix_reconstruction_witness :
    1 < 3 ∧ prefixConcat (chunkerL ['a','b','c','d','e'] 3 1) = ['a','b','c','d','e'] :=
  ⟨by decide, chunker_prefix_reconstruction 3 1 ['a','b','c','d','e'] (by decide)⟩

/-! ## Fixed-window chunker, array-building variant (the `while` loop)

Source (`scripts/agent3_build.mjs`, `function chunkText(full)`, with
`CHUNK_SIZE = 1400`, `CHUNK_OVERLAP = 200`):
```
let i = 0, id = 0;
while (i < full.length) {
  const end = Math.min(full.length, i + CHUNK_SIZE);
  const slice = full.slice(i, end);
  chunks.push({ id: id++, text: slice, offset: i });
  i = end - CHUNK_OVERLAP;
  if (i < 0) i = 0;
  if (i >= full.length) break;
}
```
The loop body is embedded as a step function on the loop variable `i`
(`len` is `full.length`, `W` is `CHUNK_SIZE`, `O` is `CHUNK_OVERLAP`).
`none` means the loop has exited (either the `break` fired or the `while`
guard failed); `some i` is the value of the loop variable at the next
iteration.  `Nat` subtraction `e - O` is the JS `end - CHUNK_OVERLAP`
followed by the clamp `if (i < 0) i = 0`. -/

def chunkTextIter (len W O i : Nat) : Option Nat :=
  if i < len then
    let e := min len (i + W)
    let next := e - O
    if len ≤ next then none else some next
  else none

/-- The loop variable of `chunkText` after `k` iterations of the loop body
(`some 0` before the first iteration; `none` once the loop has exited). -/
def chunkTextRunState (len W O : Nat) : Nat → Option Nat
  | 0 => some 0
  | k + 1 =>
    match chunkTextRunState len W O k with
    | none => none
    | some i => chunkTextIter len W O i

/-- **C1 (failing).** For every non-empty text and every overlap `O > 0`
(the source fixes `W = 1400`, `O = 200`), the `chunkText` scan never
terminates: after every number of iterations the loop is still running.
The `break` test `i >= full.length` can never succeed, because `i` is set to
`end - CHUNK_OVERLAP` (clamped at 0), which is always below the text length. -/
theorem chunkText_loop_never_exits (len W O : Nat) (hlen : 0 < len) (hO : 0 < O)
    (k : Nat) : ∃ i, chunkTextRunState len W O k = some i ∧ i < len := by
  induction k with
  | zero => exact ⟨0, rfl, hlen⟩
  | succ k ih =>
    obtain ⟨i, hi, hilt⟩ := ih
    refine ⟨min len (i + W) - O, ?_, by omega⟩
    simp only [chunkTextRunState, hi, chunkTextIter, if_pos hilt]
    have : ¬ len ≤ min len (i + W) - O := by omega
    simp [this]

/-- Witness for C1: the text `"a"` (length 1) with the source's constants
`CHUNK_SIZE = 1400`, `CHUNK_OVERLAP = 200`; after 5 iterations the loop is
still running. -/
theorem chunkText_loop_never_exits_witness :
    0 < 1 ∧ 0 < 200 ∧ ∃ i, chunkTextRunState 1 1400 200 5 = some i ∧ i < 1 :=
  ⟨by decide, by decide, chunkText_loop_never_exits 1 1400 200 (by decide) (by decide) 5⟩

/-! ## Fixed-window chunker, generator variant with explicit offsets

Source (`scripts/agent3_build.mjs`, second variant):
```
function* chunkText(text, size = 900, stride = 700) {
  const n = text.length;
  if (n <= size) { yield { start: 0, end: n, text }; return; }
  for (let i = 0; i < n; i += stride) {
    const end = Math.min(i + size, n);
    yield { start: i, end, text: text.slice(i, end) };
    if (end === n) break;
  }
}
```
The only call site uses the default parameters, so `size = 900` and
`stride = 700` are fixed here. -/

def chunkText2Go (text : List Char) (i : Nat) : List (Nat × Nat × List Char) :=
  if h : i < text.length then
    let e := min (i + 900) text.length
    (i, e, (text.drop i).take (e - i)) ::
      (if e = text.length then [] else chunkText2Go text (i + 700))
  else []
termination_by text.length - i
decreasing_by omega

def chunkText2 (text : List Char) : List (Nat × Nat × List Char) :=
  if text.length ≤ 900 then [(0, text.length, text)] else chunkText2Go text 0

/-- **C2 (counterexample).** An empty document does not yield zero chunks from
the generator variant: `chunkText2 ""` yields one chunk (with empty text), and
a whitespace-only document `" "` yields one chunk from `chunker`, not zero. -/
theorem chunk_empty_doc_counterexample :
    chunkText2 [] = [(0, 0, [])] ∧ chunkText2 [] ≠ [] ∧
      chunkerL [' '] 850 120 = [(0, [' '])] ∧ chunkerL [' '] 850 120 ≠ [] := by
  refine ⟨by decide, by decide, ?_, ?_⟩
  · rw [chunkerL, chunkerGo.eq_def]
    decide
  · rw [chunkerL, chunkerGo.eq_def]
    decide

/-- **C2 (amended).** The stream variant `chunker` yields zero chunks on the
empty document, while the generator variant `chunkText` yields one chunk with
empty text; every non-empty document (whitespace-only included) whose length is
at most one window yields exactly one chunk spanning the whole document. -/
theorem chunk_short_document (W O : Nat) (text : List Char) (hO : O < W) :
    chunkerL [] W O = [] ∧
      chunkText2 [] = [(0, 0, [])] ∧
      (text ≠ [] → text.length ≤ W → chunkerL text W O = [(0, text)]) ∧
      (text.length ≤ 900 → chunkText2 text = [(0, text.length, text)]) := by
  refine ⟨?_, by decide, ?_, ?_⟩
  · rw [chunkerL, chunkerGo.eq_def]
    simp
  · intro hne hlen
    rw [chunkerL, chunkerGo.eq_def]
    have h0 : 0 < text.length := List.length_pos.mpr hne
    have he : min text.length (0 + W) = text.length := by omega
    simp only [dif_pos h0, he, if_pos rfl]
    simp [List.take_of_length_le]
  · intro hlen
    rw [chunkText2, if_pos hlen]

/-- Witness for C2 (amended) at `W = 850`, `O = 120`, text `" "`. -/
theorem chunk_short_document_witness :
    chunkerL [' '] 850 120 = [(0, [' '])] :=
  (chunk_short_document 850 120 [' '] (by decide)).2.2.1 (by decide) (by decide)

/-! ## Query matcher

Source (`fulltext-mode.js`, `buildMatcher(q, orMode)`):
```
const quoted = q.match(/"([^"]+)"/);
if (quoted) {
  const needle = quoted[1].toLowerCase();
  return (txt) => {
    const i = txt.toLowerCase().indexOf(needle);
    if (i < 0) return [];
    return [[i, i + needle.length]];
  };
}
const toks = q.split(/\s+/).filter(Boolean).map(t => t.toLowerCase());
if (!toks.length) return () => [];
return (txt) => {
  const hay = txt.toLowerCase();
  const spans = [];
  let matchedAny = false;
  for (const t of toks) {
    let idx = hay.indexOf(t), hit = false;
    while (idx >= 0) {
      spans.push([idx, idx + t.length]);
      hit = true;
      matchedAny = true;
      idx = hay.indexOf(t, idx + t.length);
    }
    if (!orMode && !hit) return [];
  }
  return orMode ? (matchedAny ? spans : []) : spans;
};
```
`String.prototype.indexOf` is embedded as `firstOccur` (leftmost occurrence)
and `indexOfFrom` (occurrence at or after a start position);
`toLowerCase` as a character-wise `Char.toLower` map. -/

def toLowerL (s : List Char) : List Char := s.map Char.toLower

/-- `hay.indexOf(pat)`: the least position where `pat` occurs in `hay`
(`none` for JS's `-1`). -/
def firstOccur : List Char → List Char → Option Nat
  | hay, pat =>
    if pat.isPrefixOf hay then some 0
    else
      match hay with
      | [] => none
      | _ :: t => (firstOccur t pat).map (· + 1)

/-- `hay.indexOf(pat, start)`. -/
def indexOfFrom (hay pat : List Char) (start : Nat) : Option Nat :=
  (firstOccur (hay.drop start) pat).map (· + start)

/-- The `while (idx >= 0)` collection loop: occurrence positions of `pat`,
each search resuming at `idx + pat.length`.  The loop is fuel-indexed; a fuel
of `hay.length + 1` is enough for every non-empty pattern. -/
def occsFrom (hay pat : List Char) : Nat → Nat → List Nat
  | _, 0 => []
  | start, fuel + 1 =>
    match indexOfFrom hay pat start with
    | none => []
    | some i => i :: occsFrom hay pat (i + pat.length) fuel

def occs (hay pat : List Char) : List Nat :=
  occsFrom hay pat 0 (hay.length + 1)

def spanize (t : List Char) (os : List Nat) : List (Nat × Nat) :=
  os.map (fun i => (i, i + t.length))

/-- The token loop of `buildMatcher`: iterates over the tokens, accumulating
spans and the `matchedAny` flag; in AND mode a token with no occurrence
returns `[]` immediately. -/
def matcherGo (hay : List Char) (orMode : Bool) :
    List (List Char) → List (Nat × Nat) → Bool → List (Nat × Nat)
  | [], spans, matchedAny => if orMode then (if matchedAny then spans else []) else spans
  | t :: rest, spans, matchedAny =>
    let os := occs hay t
    if orMode = false ∧ os = [] then []
    else matcherGo hay orMode rest (spans ++ spanize t os) (matchedAny || !os.isEmpty)

/-- `q.split(/\s+/).filter(Boolean).map(t => t.toLowerCase())`: whitespace
tokenization with empty pieces dropped, tokens lowercased. -/
def tokenizeGo : List Char → List Char → List (List Char)
  | [], acc => if acc = [] then [] else [acc.reverse]
  | c :: rest, acc =>
    if c.isWhitespace then
      (if acc = [] then tokenizeGo rest [] else acc.reverse :: tokenizeGo rest [])
    else tokenizeGo rest (c :: acc)

def tokenize (q : List Char) : List (List Char) :=
  (tokenizeGo q []).map toLowerL

/-- `q.match(/"([^"]+)"/)`: the first double-quoted non-empty substring of the
query, scanning candidate start positions left to right. -/
def findQuoted : List Char → Option (List Char)
  | [] => none
  | c :: rest =>
    if c = '"' then
      let content := rest.takeWhile (fun d => d ≠ '"')
      if content.length ≠ 0 ∧ content.length < rest.length then some content
      else findQuoted rest
    else findQuoted rest

/-- `buildMatcher(q, orMode)` applied to a text. -/
def buildMatcher (q : List Char) (orMode : Bool) (txt : List Char) : List (Nat × Nat) :=
  match findQuoted q with
  | some needle0 =>
    let needle := toLowerL needle0
    match firstOccur (toLowerL txt) needle with
    | none => []
    | some i => [(i, i + needle.length)]
  | none =>
    let toks := tokenize q
    if toks = [] then [] else matcherGo (toLowerL txt) orMode toks [] false

theorem firstOccur_eq_none_iff (pat : List Char) :
    ∀ hay, firstOccur hay pat = none ↔ ¬ pat <:+: hay := by
  intro hay
  induction hay with
  | nil =>
    rw [firstOccur]
    by_cases hp : pat.isPrefixOf ([] : List Char)
    · simp only [if_pos hp]
      have : pat <+: ([] : List Char) := List.isPrefixOf_iff_prefix.mp hp
      simp [this.isInfix]
    · simp only [if_neg hp]
      have hnp : ¬ pat <+: ([] : List Char) := fun h => hp (List.isPrefixOf_iff_prefix.mpr h)
      constructor
      · intro _ hinf
        have : pat = [] := List.eq_nil_of_infix_nil hinf
        exact hnp (by simp [this])
      · intro _
        trivial
  | cons a t ih =>
    rw [firstOccur]
    by_cases hp : pat.isPrefixOf (a :: t)
    · simp only [if_pos hp]
      have : pat <+: a :: t := List.isPrefixOf_iff_prefix.mp hp
      simp [this.isInfix]
    · simp only [if_neg hp]
      have hnp : ¬ pat <+: a :: t := fun h => hp (List.isPrefixOf_iff_prefix.mpr h)
      rw [List.infix_cons_iff]
      constructor
      · intro h
        rcases Option.map_eq_none'.mp h with h2
        intro hcon
        rcases hcon with hcon | hcon
        · exact hnp hcon
        · exact (ih.mp h2) hcon
      · intro h
        have : firstOccur t pat = none := ih.mpr (fun hc => h (Or.inr hc))
        simp [this]

theorem occs_eq_nil_iff (hay pat : List Char) : occs hay pat = [] ↔ ¬ pat <:+: hay := by
  rw [← firstOccur_eq_none_iff pat hay]
  cases h : firstOccur hay pat with
  | none => simp [occs, occsFrom, indexOfFrom, h]
  | some i => simp [occs, occsFrom, indexOfFrom, h]

theorem matcherGo_and_absent (hay : List Char) :
    ∀ toks spans matchedAny, (∃ t ∈ toks, occs hay t = []) →
      matcherGo hay false toks spans matchedAny = [] := by
  intro toks
  induction toks with
  | nil =>
    rintro spans ma ⟨t, ht, _⟩
    cases ht
  | cons t rest ih =>
    rintro spans ma ⟨u, hu, hocc⟩
    rw [matcherGo]
    by_cases h : occs hay t = []
    · simp [h]
    · simp only [h, and_false, if_false, eq_self_iff_true, true_and]
      rcases List.mem_cons.mp hu with rfl | hu2
      · exact absurd hocc h
      · exact ih _ _ ⟨u, hu2, hocc⟩

/-- All spans of all tokens, in token order then occurrence order. -/
def allSpans (hay : List Char) (toks : List (List Char)) : List (Nat × Nat) :=
  (toks.map (fun t => spanize t (occs hay t))).flatten

theorem matcherGo_or_eq (hay : List Char) :
    ∀ toks spans ma, matcherGo hay true toks spans ma =
      if ma || toks.any (fun t => !(occs hay t).isEmpty) then spans ++ allSpans hay toks
      else [] := by
  intro toks
  induction toks with
  | nil =>
    intro spans ma
    cases ma <;> simp [matcherGo, allSpans]
  | cons t rest ih =>
    intro spans ma
    rw [matcherGo]
    have hne : ¬ (true = false ∧ occs hay t = []) := fun hc => by cases hc.1
    simp only [if_neg hne]
    rw [ih]
    simp only [List.any_cons, allSpans, List.map_cons, List.flatten_cons]
    by_cases hocc : (occs hay t).isEmpty
    · have h0 : occs hay t = [] := by
        cases h : occs hay t
        · rfl
        · rw [h] at hocc; cases hocc
      simp [h0, spanize, allSpans]
    · simp only [hocc, Bool.not_false, Bool.or_true, Bool.true_or, Bool.or_assoc]
      simp [allSpans, List.append_assoc]

theorem matcherGo_or_empty_iff (hay : List Char) (toks : List (List Char)) :
    matcherGo hay true toks [] false = [] ↔ ∀ t ∈ toks, occs hay t = [] := by
  rw [matcherGo_or_eq]
  simp only [Bool.false_or, List.nil_append]
  by_cases h : toks.any (fun t => !(occs hay t).isEmpty) = true
  · rw [if_pos h]
    obtain ⟨t, ht, hocc⟩ := List.any_eq_true.mp h
    have hne : occs hay t ≠ [] := fun h0 => by rw [h0] at hocc; cases hocc
    obtain ⟨i, hi⟩ := List.exists_mem_of_ne_nil _ hne
    have hmem : (i, i + t.length) ∈ allSpans hay toks := by
      simp only [allSpans, List.mem_flatten]
      refine ⟨spanize t (occs hay t), List.mem_map_of_mem _ ht, ?_⟩
      simp only [spanize]
      exact List.mem_map.mpr ⟨i, hi, rfl⟩
    constructor
    · intro hall
      rw [hall] at hmem
      cases hmem
    · intro hall
      exact absurd (hall t ht) hne
  · rw [if_neg h]
    simp only [eq_self_iff_true, true_iff]
    intro t ht
    by_contra hne
    apply h
    refine List.any_eq_true.mpr ⟨t, ht, ?_⟩
    cases hocc : occs hay t with
    | nil => exact absurd hocc hne
    | cons a l => simp

/-- **C3.** For every query without a double-quoted phrase (split on whitespace
into case-insensitive tokens) and every text: in AND mode the matcher returns an
empty span list if some token is absent from the text, and in OR mode the span
list is empty if and only if all tokens are absent from the text. -/
theorem and_or_token_matcher (q txt : List Char) (hq : findQuoted q = none) :
    ((∃ t ∈ tokenize q, ¬ t <:+: toLowerL txt) → buildMatcher q false txt = []) ∧
      (buildMatcher q true txt = [] ↔ ∀ t ∈ tokenize q, ¬ t <:+: toLowerL txt) := by
  simp only [buildMatcher, hq]
  by_cases h0 : tokenize q = []
  · simp [h0]
  · simp only [if_neg h0]
    constructor
    · rintro ⟨t, ht, habs⟩
      exact matcherGo_and_absent _ _ _ _ ⟨t, ht, (occs_eq_nil_iff _ _).mpr habs⟩
    · rw [matcherGo_or_empty_iff]
      constructor
      · intro hall t ht
        exact (occs_eq_nil_iff _ _).mp (hall t ht)
      · intro hall t ht
        exact (occs_eq_nil_iff _ _).mpr (hall t ht)

/-- Witness for C3: query `"a"` (one token, no quotes), text `"b"`. -/
theorem and_or_token_matcher_witness :
    ((∃ t ∈ tokenize ['a'], ¬ t <:+: toLowerL ['b']) → buildMatcher ['a'] false ['b'] = []) ∧
      (buildMatcher ['a'] true ['b'] = [] ↔ ∀ t ∈ tokenize ['a'], ¬ t <:+: toLowerL ['b']) :=
  and_or_token_matcher ['a'] ['b'] (by decide)

theorem firstOccur_eq_some_iff (pat : List Char) :
    ∀ hay i, firstOccur hay pat = some i →
      pat <+: hay.drop i ∧ ∀ j < i, ¬ pat <+: hay.drop j := by
  intro hay
  induction hay with
  | nil =>
    intro i h
    rw [firstOccur] at h
    by_cases hp : pat.isPrefixOf ([] : List Char)
    · rw [if_pos hp] at h
      cases h
      exact ⟨List.isPrefixOf_iff_prefix.mp hp, fun j hj => absurd hj (Nat.not_lt_zero j)⟩
    · rw [if_neg hp] at h
      cases h
  | cons a t ih =>
    intro i h
    rw [firstOccur] at h
    by_cases hp : pat.isPrefixOf (a :: t)
    · rw [if_pos hp] at h
      cases h
      exact ⟨List.isPrefixOf_iff_prefix.mp hp, fun j hj => absurd hj (Nat.not_lt_zero j)⟩
    · rw [if_neg hp] at h
      obtain ⟨i0, hi0, rfl⟩ := Option.map_eq_some'.mp h
      obtain ⟨hpre, hmin⟩ := ih i0 hi0
      refine ⟨by simpa using hpre, ?_⟩
      intro j hj
      cases j with
      | zero =>
        simpa using fun hc => hp (List.isPrefixOf_iff_prefix.mpr hc)
      | succ j0 =>
        have := hmin j0 (by omega)
        simpa using this

/-- **C10.** In phrase mode (the query contains a double-quoted substring), the
matcher returns at most one span, and that span is the leftmost case-insensitive
occurrence of the phrase, even if the phrase occurs several times. -/
theorem phrase_mode_at_most_one_span (q txt needle : List Char) (orMode : Bool)
    (hq : findQuoted q = some needle) :
    (buildMatcher q orMode txt).length ≤ 1 ∧
      ∀ s e, (s, e) ∈ buildMatcher q orMode txt →
        toLowerL needle <+: (toLowerL txt).drop s ∧
          e = s + needle.length ∧
          ∀ j < s, ¬ toLowerL needle <+: (toLowerL txt).drop j := by
  simp only [buildMatcher, hq]
  cases h : firstOccur (toLowerL txt) (toLowerL needle) with
  | none => simp
  | some i =>
    obtain ⟨hpre, hmin⟩ := firstOccur_eq_some_iff _ _ _ h
    refine ⟨by simp, ?_⟩
    intro s e hmem
    simp only [List.mem_singleton, Prod.mk.injEq] at hmem
    obtain ⟨rfl, rfl⟩ := hmem
    exact ⟨hpre, by simp [toLowerL], fun j hj => hmin j hj⟩

/-- Witness for C10: query `"ab"` (quoted), text `"xabab"`; the phrase occurs
twice but only the leftmost occurrence is reported. -/
theorem phrase_mode_at_most_one_span_witness :
    (buildMatcher ['"','a','b','"'] true ['x','a','b','a','b']).length ≤ 1 ∧
      ∀ s e, (s, e) ∈ buildMatcher ['"','a','b','"'] true ['x','a','b','a','b'] →
        toLowerL ['a','b'] <+: (toLowerL ['x','a','b','a','b']).drop s ∧
          e = s + (['a','b'] : List Char).length ∧
          ∀ j < s, ¬ toLowerL ['a','b'] <+: (toLowerL ['x','a','b','a','b']).drop j :=
  phrase_mode_at_most_one_span ['"','a','b','"'] ['x','a','b','a','b'] ['a','b'] true (by decide)

/-! ## Snippet selection

Source (`fulltext-mode.js`, `runFulltextSearch`):
```
spans.sort((a,b)=>a[0]-b[0]);
const chosen = [];
let lastEnd = -1;
for (const [s,e] of spans) {
  if (s <= lastEnd) continue;
  chosen.push([s,e]);
  lastEnd = e;
  if (chosen.length >= STATE.maxSnippetsPerDoc) break;
}
```
`Array.prototype.sort` with this comparator is a stable ascending sort on the
span start; it is embedded as a stable insertion sort.  `lastEnd` starts at
`-1` and is modelled as an `Int`. -/

def sortSpans (spans : List (Nat × Nat)) : List (Nat × Nat) :=
  List.insertionSort (fun a b => a.1 ≤ b.1) spans

def chooseLoop (maxN : Nat) : List (Nat × Nat) → Int → List (Nat × Nat) → List (Nat × Nat)
  | [], _, chosen => chosen
  | (s, e) :: rest, lastEnd, chosen =>
    if (s : Int) ≤ lastEnd then chooseLoop maxN rest lastEnd chosen
    else
      let chosen1 := chosen ++ [(s, e)]
      if maxN ≤ chosen1.length then chosen1
      else chooseLoop maxN rest (e : Int) chosen1

/-- The selected snippet spans for a span list and maximum count. -/
def chooseSpans (spans : List (Nat × Nat)) (maxN : Nat) : List (Nat × Nat) :=
  chooseLoop maxN (sortSpans spans) (-1) []

/-- **C6 (counterexample).** On the span list `[(0,2), (2,4)]` with maximum
count 6 (the source's `maxSnippetsPerDoc`), the span `(2,4)` starts exactly at
the end of the previously selected span `(0,2)`; the claim says it is selected,
but the code's test `s <= lastEnd` skips it. -/
theorem snippet_skip_rule_counterexample :
    chooseSpans [(0,2), (2,4)] 6 = [(0,2)] ∧
      chooseSpans [(0,2), (2,4)] 6 ≠ [(0,2), (2,4)] := by
  constructor
  · rfl
  · decide

/-- The greedy selection described by the amended claim: scan the sorted spans
left to right, skip a span whose start is less than **or equal to** the end of
the previously selected span, select it otherwise, and stop once `N` spans have
been selected. -/
def greedySelect (N : Nat) (lastEnd : Int) : List (Nat × Nat) → List (Nat × Nat)
  | [] => []
  | (s, e) :: rest =>
    if N = 0 then []
    else if (s : Int) ≤ lastEnd then greedySelect N lastEnd rest
    else (s, e) :: greedySelect (N - 1) (e : Int) rest

theorem chooseLoop_eq_greedySelect (maxN : Nat) :
    ∀ (l : List (Nat × Nat)) (lastEnd : Int) (chosen : List (Nat × Nat)),
      chosen.length < maxN →
      chooseLoop maxN l lastEnd chosen = chosen ++ greedySelect (maxN - chosen.length) lastEnd l := by
  intro l
  induction l with
  | nil =>
    intro lastEnd chosen _
    simp [chooseLoop, greedySelect]
  | cons p rest ih =>
    rintro lastEnd chosen hlt
    obtain ⟨s, e⟩ := p
    rw [chooseLoop, greedySelect]
    have hN0 : ¬ (maxN - chosen.length = 0) := by omega
    rw [if_neg hN0]
    by_cases hsle : (s : Int) ≤ lastEnd
    · rw [if_pos hsle, if_pos hsle]
      exact ih lastEnd chosen hlt
    · rw [if_neg hsle, if_neg hsle]
      by_cases hfull : maxN ≤ (chosen ++ [(s, e)]).length
      · rw [if_pos hfull]
        have hlen : maxN - chosen.length = 1 := by
          simp only [List.length_append, List.length_singleton] at hfull ⊢
          omega
        rw [hlen]
        have : greedySelect (1 - 1) (e : Int) rest = [] := by
          cases rest with
          | nil => rfl
          | cons q l2 => rw [greedySelect]; simp
        rw [this]
      · rw [if_neg hfull]
        have hlt2 : (chosen ++ [(s, e)]).length < maxN := by omega
        rw [ih (e : Int) (chosen ++ [(s, e)]) hlt2]
        have harith : maxN - (chosen ++ [(s, e)]).length = maxN - chosen.length - 1 := by
          simp only [List.length_append, List.length_singleton]
          omega
        rw [harith]
        simp

/-- **C6 (amended).** For every span list and maximum count `N ≥ 1`, the snippet
selector sorts the spans by start ascending and greedily selects them left to
right, skipping exactly those spans whose start is less than or equal to the end
of the previously selected span (a span whose start equals the previous end is
also skipped), and stops once `N` spans are selected or the list is exhausted. -/
theorem snippet_selection_greedy (spans : List (Nat × Nat)) (maxN : Nat) (hN : 1 ≤ maxN) :
    chooseSpans spans maxN = greedySelect maxN (-1) (sortSpans spans) := by
  have := chooseLoop_eq_greedySelect maxN (sortSpans spans) (-1) [] (by simpa using hN)
  simpa [chooseSpans] using this

/-- Witness for C6 (amended) at the counterexample's span list and `N = 2`. -/
theorem snippet_selection_greedy_witness :
    chooseSpans [(0,2), (2,4)] 2 = greedySelect 2 (-1) (sortSpans [(0,2), (2,4)]) :=
  snippet_selection_greedy [(0,2), (2,4)] 2 (by decide)

theorem chooseLoop_chain (maxN : Nat) :
    ∀ (l : List (Nat × Nat)) (lastEnd : Int) (chosen : List (Nat × Nat)),
      List.Chain' (fun a b => a.2 ≤ b.1) chosen →
      (∀ p, chosen.getLast? = some p → (p.2 : Int) ≤ lastEnd) →
      List.Chain' (fun a b => a.2 ≤ b.1) (chooseLoop maxN l lastEnd chosen) := by
  intro l
  induction l with
  | nil =>
    intro lastEnd chosen hc _
    exact hc
  | cons p rest ih =>
    rintro lastEnd chosen hc hlast
    obtain ⟨s, e⟩ := p
    rw [chooseLoop]
    by_cases hsle : (s : Int) ≤ lastEnd
    · rw [if_pos hsle]
      exact ih lastEnd chosen hc hlast
    · rw [if_neg hsle]
      have hc1 : List.Chain' (fun a b => a.2 ≤ b.1) (chosen ++ [(s, e)]) := by
        rw [List.chain'_append]
        refine ⟨hc, List.chain'_singleton _, ?_⟩
        intro x hx y hy
        simp only [List.head?_cons, Option.mem_def, Option.some.injEq] at hy
        subst hy
        have := hlast x hx
        have : (x.2 : Int) < (s : Int) := lt_of_le_of_lt this (lt_of_not_le hsle)
        exact_mod_cast le_of_lt this
      have hlast1 : ∀ p, (chosen ++ [(s, e)]).getLast? = some p → (p.2 : Int) ≤ (e : Int) := by
        intro p hp
        rw [List.getLast?_concat] at hp
        cases hp
        simp
      by_cases hfull : maxN ≤ (chosen ++ [(s, e)]).length
      · rw [if_pos hfull]
        exact hc1
      · rw [if_neg hfull]
        exact ih (e : Int) (chosen ++ [(s, e)]) hc1 hlast1

/-- **C9.** Snippet selection never returns overlapping spans: in the selected
list, every pair of consecutive spans `(s1,e1), (s2,e2)` satisfies `e1 ≤ s2`
(in fact the code guarantees `e1 < s2`). -/
theorem snippet_selection_nonoverlapping (spans : List (Nat × Nat)) (maxN : Nat) :
    List.Chain' (fun a b => a.2 ≤ b.1) (chooseSpans spans maxN) := by
  exact chooseLoop_chain maxN (sortSpans spans) (-1) [] (List.chain'_nil) (by simp)

/-! ## URL resolution

Source (`fulltext-mode.js`):
```
function resolveURL(u) {
  try { return new URL(u, location.origin).href; } catch { return u; }
}
```
and online scan loop (`runFulltextSearch`):
```
for (const rec of arr) {
  const url = resolveURL(rec.url);
  let txt;
  try { const r = await fetch(url, { cache:'no-store' }); ... } catch { continue; }
  ...
}
```
The WHATWG `URL` constructor is a platform builtin, not repository code, so it
is modelled from the spec. -/

def dropDotSlash (u : List Char) : List Char :=
  if ['.', '/'].isPrefixOf u then u.drop 2 else u

/-- `/^https?:\/\//i`-style scheme test, as the repository uses elsewhere. -/
def hasScheme (u : List Char) : Bool :=
  ['h','t','t','p',':','/','/'].isPrefixOf (toLowerL u) ||
    ['h','t','t','p','s',':','/','/'].isPrefixOf (toLowerL u)

/-- Modelled from the spec: the platform URL constructor `new URL(u, base)`
used by `resolveURL`/`resolveUrl` (§4.2: a location that is already absolute —
scheme present — is used as-is; a relative location is resolved against the
base origin; a malformed location, e.g. an absolute form with an empty host
such as `"https://"`, makes the constructor throw).  `none` models the thrown
`TypeError`; path normalisation is elided, as no claim depends on it. -/
def newURL (u base : List Char) : Option (List Char) :=
  if hasScheme u then
    let afterScheme :=
      if ['h','t','t','p','s',':','/','/'].isPrefixOf (toLowerL u) then u.drop 8 else u.drop 7
    if afterScheme.takeWhile (fun c => c ≠ '/') = [] then none else some u
  else some (base ++ '/' :: dropDotSlash u)

/-- `resolveURL(u)`: the `catch` branch returns the raw input unchanged. -/
def resolveURL (base u : List Char) : List Char :=
  (newURL u base).getD u

structure CatRecord where
  title : List Char
  url : List Char
deriving DecidableEq

/-- The URLs the online scan fetches: one per catalog record, each the result
of `resolveURL` — the loop fetches every record's resolved URL and drops none
before fetching. -/
def fetchPlanUrls (base : List Char) (records : List CatRecord) : List (List Char) :=
  records.map (fun r => resolveURL base r.url)

/-- **C4 (counterexample).** The malformed location `"https://"` (scheme but no
host) makes the URL constructor fail, yet `resolveURL` returns the raw string
itself — not a failure signal — and the scan loop passes it to fetching instead
of dropping the descriptor. -/
theorem malformed_url_passed_downstream_counterexample :
    newURL ['h','t','t','p','s',':','/','/'] ['b'] = none ∧
      resolveURL ['b'] ['h','t','t','p','s',':','/','/'] = ['h','t','t','p','s',':','/','/'] ∧
      fetchPlanUrls ['b'] [⟨['t'], ['h','t','t','p','s',':','/','/']⟩] =
        [['h','t','t','p','s',':','/','/']] := by
  refine ⟨by decide, by decide, by decide⟩

/-- **C4 (amended).** URL resolution never throws (it is a total function), but
on a malformed location it returns the raw location string unchanged rather
than a distinct failure signal, and no descriptor is dropped before fetching:
the fetch list has one URL per record, and a record whose location the URL
constructor rejects contributes its raw location to the fetch list. -/
theorem resolution_total_never_drops (base : List Char) (records : List CatRecord) :
    (fetchPlanUrls base records).length = records.length ∧
      ∀ r ∈ records, newURL r.url base = none → r.url ∈ fetchPlanUrls base records := by
  constructor
  · simp [fetchPlanUrls]
  · intro r hr hfail
    have : resolveURL base r.url = r.url := by simp [resolveURL, hfail]
    rw [fetchPlanUrls, ← this]
    exact List.mem_map_of_mem _ hr

/-- Witness for C4 (amended): one record carrying the malformed `"https://"`. -/
theorem resolution_total_never_drops_witness :
    (⟨['t'], ['h','t','t','p','s',':','/','/']⟩ : CatRecord).url ∈
      fetchPlanUrls ['b'] [⟨['t'], ['h','t','t','p','s',':','/','/']⟩] :=
  (resolution_total_never_drops ['b'] [⟨['t'], ['h','t','t','p','s',':','/','/']⟩]).2
    ⟨['t'], ['h','t','t','p','s',':','/','/']⟩ (by decide) (by decide)

/-! ## Offline build: chunk records with the sequential id counter

Source (the catalog build script with the `cid` counter):
```
function toChunks(fullText, maxLen = 1200) {
  const chunks = [];
  let i = 0;
  while (i < fullText.length) {
    const slice = fullText.slice(i, i + maxLen);
    chunks.push(slice);
    i += maxLen;
  }
  return chunks;
}
...
let cid = 0;
for (const it of items) {
  const url = absolutize(it.url_txt);
  if (!url) continue;
  try {
    const txt = await fetchTxt(url);
    const chunks = toChunks(txt);
    for (const c of chunks) {
      const id = String(++cid);
      ... push({ id, url, title, kind, jurisdiction, text: c }) ...
    }
  } catch (e) { /* skip the document */ }
}
```
`toChunks` is called only with the default `maxLen = 1200`, fixed here.  The
fetch outcome of each item is an input of the model (`none` = `fetchTxt`
threw).  The loop is fuel-indexed with ample fuel (`i` advances by 1200 every
iteration).  The embedding also records the loop variable `i` at the moment
each slice is taken (the chunk's start offset in the fetched text). -/

def toChunksGo (fullText : List Char) : Nat → Nat → List (Nat × List Char)
  | _, 0 => []
  | i, fuel + 1 =>
    if i < fullText.length then
      (i, (fullText.drop i).take 1200) :: toChunksGo fullText (i + 1200) fuel
    else []

def toChunks (fullText : List Char) : List (Nat × List Char) :=
  toChunksGo fullText 0 (fullText.length + 1)

structure CatItem where
  title : List Char
  kind : List Char
  juris : List Char
  url_txt : List Char
  fetched : Option (List Char)

/-- `absolutize(url_txt)` of the build script (`none` models its `null`). -/
def absolutize (base url_txt : List Char) : Option (List Char) :=
  if url_txt = [] then none
  else if hasScheme url_txt then some url_txt
  else newURL (dropDotSlash url_txt) base

structure ChunkRec where
  id : String
  url : List Char
  title : List Char
  kind : List Char
  juris : List Char
  offset : Nat
  text : List Char
deriving DecidableEq

/-- The inner `for (const c of chunks)` loop: one record per chunk, with
`id = String(++cid)`. -/
def docRecs (url title kind juris : List Char) :
    List (Nat × List Char) → Nat → List ChunkRec
  | [], _ => []
  | (off, c) :: rest, cid =>
    ⟨toString (cid + 1), url, title, kind, juris, off, c⟩ ::
      docRecs url title kind juris rest (cid + 1)

/-- The outer loop over catalog items, threading the `cid` counter. -/
def buildGo (base : List Char) : List CatItem → Nat → List ChunkRec
  | [], _ => []
  | it :: rest, cid =>
    match absolutize base it.url_txt with
    | none => buildGo base rest cid
    | some url =>
      match it.fetched with
      | none => buildGo base rest cid
      | some txt =>
        let rs := docRecs url it.title it.kind it.juris (toChunks txt) cid
        rs ++ buildGo base rest (cid + rs.length)

def buildRecords (base : List Char) (items : List CatItem) : List ChunkRec :=
  buildGo base items 0

/-- **C5 (counterexample).** A document catalogued twice yields two chunks with
the same document identity (canonical URL) and the same start offset but
distinct ids (`"1"` and `"2"`), so the chunk id is not a function of
`(documentIdentity, startOffset)`. -/
theorem chunk_id_not_function_counterexample :
    ((buildRecords ['b'] [⟨['T'], ['l'], [], ['h','t','t','p',':','/','/','x'], some ['a','b']⟩,
        ⟨['T'], ['l'], [], ['h','t','t','p',':','/','/','x'], some ['a','b']⟩]).map
      (fun r => (r.id, r.url, r.offset))) =
      [("1", ['h','t','t','p',':','/','/','x'], 0), ("2", ['h','t','t','p',':','/','/','x'], 0)] ∧
      ¬ (∀ r1 ∈ buildRecords ['b'] [⟨['T'], ['l'], [], ['h','t','t','p',':','/','/','x'], some ['a','b']⟩,
            ⟨['T'], ['l'], [], ['h','t','t','p',':','/','/','x'], some ['a','b']⟩],
          ∀ r2 ∈ buildRecords ['b'] [⟨['T'], ['l'], [], ['h','t','t','p',':','/','/','x'], some ['a','b']⟩,
            ⟨['T'], ['l'], [], ['h','t','t','p',':','/','/','x'], some ['a','b']⟩],
          r1.url = r2.url → r1.offset = r2.offset → r1.id = r2.id) := by
  refine ⟨by decide, by decide⟩

theorem docRecs_length (url title kind juris : List Char) :
    ∀ cs cid, (docRecs url title kind juris cs cid).length = cs.length := by
  intro cs
  induction cs with
  | nil => intro cid; rfl
  | cons p rest ih =>
    intro cid
    obtain ⟨off, c⟩ := p
    simp [docRecs, ih]

theorem docRecs_ids (url title kind juris : List Char) :
    ∀ cs cid, (docRecs url title kind juris cs cid).map (fun r => r.id) =
      (List.range' cid cs.length).map (fun n => toString (n + 1)) := by
  intro cs
  induction cs with
  | nil => intro cid; rfl
  | cons p rest ih =>
    intro cid
    obtain ⟨off, c⟩ := p
    simp only [docRecs, List.map_cons, List.length_cons, List.range'_succ]
    rw [ih]

theorem buildGo_ids (base : List Char) :
    ∀ items cid, (buildGo base items cid).map (fun r => r.id) =
      (List.range' cid (buildGo base items cid).length).map (fun n => toString (n + 1)) := by
  intro items
  induction items with
  | nil => intro cid; rfl
  | cons it rest ih =>
    intro cid
    rw [buildGo]
    cases habs : absolutize base it.url_txt with
    | none => exact ih cid
    | some url =>
      cases hf : it.fetched with
      | none => exact ih cid
      | some txt =>
        simp only [List.map_append, List.length_append]
        rw [docRecs_ids, docRecs_length, ih (cid + (toChunks txt).length), ← List.map_append]
        congr 1
        have hr := List.range'_append cid (toChunks txt).length
          (buildGo base rest (cid + (toChunks txt).length)).length 1
        simp only [Nat.one_mul] at hr
        rw [hr, Nat.add_comm]

/-- **C5 (amended).** Chunk ids are the decimal strings of a per-build
sequential counter, `"1", "2", ...`, in build order: the id list of any build
is exactly `(toString (n+1))` for `n` ranging over the chunk positions.  Hence
two builds over the identical catalog with identical fetched texts produce
identical chunk ids and identical chunk counts; but the id is not a function of
`(documentIdentity, startOffset)` alone. -/
theorem chunk_ids_sequential (base : List Char) (items : List CatItem) :
    (buildRecords base items).map (fun r => r.id) =
      (List.range (buildRecords base items).length).map (fun n => toString (n + 1)) := by
  rw [buildRecords, buildGo_ids base items 0, List.range_eq_range']

/-! ## Batch fault isolation

Online scan loop (`fulltext-mode.js`, `runFulltextSearch`): a failed document
fetch (thrown `fetch` or `!r.ok`, e.g. HTTP 404) hits `continue`, contributing
nothing to `scannedBytes`, `scannedDocs` or the result items; the loop then
proceeds with the remaining records.  `makeSnippet(text, start, end, windowChars)`:
```
const half = Math.floor(windowChars/2);
const s = Math.max(0, Math.floor((start+end)/2) - half);
const e = Math.min(text.length, s + windowChars);
return text.slice(s, e);
```
The content digest (`sha256`) is a platform call, taken as a parameter. -/

def makeSnippet (text : List Char) (start endP windowChars : Nat) : List Char :=
  let half := windowChars / 2
  let s := (start + endP) / 2 - half
  let e := min text.length (s + windowChars)
  (text.drop s).take (e - s)

structure ScanDoc where
  title : List Char
  url : List Char
  fetched : Option (List Char)

structure ResultItem where
  title : List Char
  url : List Char
  snippets : List (List Char)
  matchCount : Nat
  bytes : Nat
  sha : List Char
deriving DecidableEq

/-- The per-document scan loop: accumulates scanned bytes, scanned document
count and result items (documents with at least one span), in catalog order. -/
def scanGo (matcher : List Char → List (Nat × Nat)) (digest : List Char → List Char)
    (maxN W : Nat) : List ScanDoc → Nat × Nat × List ResultItem
  | [] => (0, 0, [])
  | d :: rest =>
    let acc := scanGo matcher digest maxN W rest
    match d.fetched with
    | none => acc
    | some txt =>
      let spans := matcher txt
      let items :=
        if spans = [] then acc.2.2
        else
          { title := d.title, url := d.url,
            snippets := (chooseSpans spans maxN).map (fun p => makeSnippet txt p.1 p.2 W),
            matchCount := spans.length, bytes := txt.length, sha := digest txt } :: acc.2.2
      (txt.length + acc.1, 1 + acc.2.1, items)

theorem scanGo_skip (matcher : List Char → List (Nat × Nat)) (digest : List Char → List Char)
    (maxN W : Nat) (d : ScanDoc) (hd : d.fetched = none) :
    ∀ xs ys, scanGo matcher digest maxN W (xs ++ d :: ys) =
      scanGo matcher digest maxN W (xs ++ ys) := by
  intro xs ys
  induction xs with
  | nil => simp [scanGo, hd]
  | cons x xs ih => simp [scanGo, ih]

theorem buildGo_skip (base : List Char) (it : CatItem) (hit : it.fetched = none) :
    ∀ is1 is2 cid, buildGo base (is1 ++ it :: is2) cid = buildGo base (is1 ++ is2) cid := by
  intro is1
  induction is1 with
  | nil =>
    intro is2 cid
    rw [List.nil_append, List.nil_append, buildGo]
    cases habs : absolutize base it.url_txt with
    | none => rfl
    | some url => rw [hit]
  | cons j is1 ih =>
    intro is2 cid
    rw [List.cons_append, List.cons_append, buildGo, buildGo]
    cases habs : absolutize base j.url_txt with
    | none => exact ih is2 cid
    | some url =>
      cases hf : j.fetched with
      | none => exact ih is2 cid
      | some txt =>
        dsimp only
        rw [ih]

/-- **C8.** A fetch failure for one document (network error or non-success
HTTP status) does not abort the batch: the scan of a catalog with the failed
document inserted anywhere equals the scan without it — every remaining
document is still attempted, and the failed document contributes zero bytes,
zero matches and no result items; likewise the offline build produces the same
chunk records (so no chunks) with the failed document present or absent. -/
theorem fetch_failure_is_isolated (matcher : List Char → List (Nat × Nat))
    (digest : List Char → List Char) (maxN W : Nat) (base : List Char)
    (xs ys : List ScanDoc) (d : ScanDoc) (hd : d.fetched = none)
    (is1 is2 : List CatItem) (it : CatItem) (hit : it.fetched = none) :
    scanGo matcher digest maxN W (xs ++ d :: ys) = scanGo matcher digest maxN W (xs ++ ys) ∧
      buildRecords base (is1 ++ it :: is2) = buildRecords base (is1 ++ is2) := by
  exact ⟨scanGo_skip matcher digest maxN W d hd xs ys, buildGo_skip base it hit is1 is2 0⟩

/-- Witness for C8: a 404-failed document between two fetched documents. -/
theorem fetch_failure_is_isolated_witness :
    scanGo (fun _ => [(0, 1)]) (fun _ => []) 6 240
        [⟨['a'], ['u'], some ['x']⟩, ⟨['b'], ['v'], none⟩, ⟨['c'], ['w'], some ['y']⟩] =
      scanGo (fun _ => [(0, 1)]) (fun _ => []) 6 240
        [⟨['a'], ['u'], some ['x']⟩, ⟨['c'], ['w'], some ['y']⟩] ∧
      buildRecords ['b'] [⟨['T'], ['l'], [], ['h','t','t','p',':','/','/','x'], none⟩] =
        buildRecords ['b'] [] :=
  fetch_failure_is_isolated (fun _ => [(0, 1)]) (fun _ => []) 6 240 ['b']
    [⟨['a'], ['u'], some ['x']⟩] [⟨['c'], ['w'], some ['y']⟩] ⟨['b'], ['v'], none⟩ rfl
    [] [] ⟨['T'], ['l'], [], ['h','t','t','p',':','/','/','x'], none⟩ rfl

end LawTools
